import Mathlib

/-!
# Boxes: culling, depth sort and instanced batching of `Scene::Drawable`

Shallow embedding of `src/app/boxes.cpp` (`Scene::Drawable`) and of the
`Shader::Define` slot record of `src/gl/shader.hpp`.

* GL side effects are recorded as a trace of `GLCall` events. `batchLoop`
  is the trace a build without bounds checks issues; `batchLoopChecked` is
  the same loop with the read of `culled_blocks` checked: a run stops as
  `Outcome.undefined` at the first upload whose range leaves the list.
* `float` is replaced by an arbitrary linearly ordered commutative ring
  (exact arithmetic); concrete evaluations are done over `Int`.
* Pointers (`Shader *`, `this`) are natural-number addresses.
* `Shader::MaxInstances` is a compile-time constant whose value the embedded
  files do not fix; it is a parameter `MaxInstances`.
* `size_t` counters are natural numbers; `batchLoopSizeT` is the batching
  loop with the 64-bit wrap made explicit, and `batchLoopSizeT_eq` shows the
  two agree as long as `active_blocks + MaxInstances ≤ 2^64`.
-/

namespace Boxes

/-! ## Data model -/

/-- Three-component vector (`glm::vec3`). -/
structure Vec3 (α : Type) where
  x : α
  y : α
  z : α
deriving DecidableEq, Repr

/-- Four-component vector (`glm::vec4`). -/
structure Vec4 (α : Type) where
  x : α
  y : α
  z : α
  w : α
deriving DecidableEq, Repr

/-- Column-major 4x4 matrix (`glm::mat4`): `c0 .. c3` are its columns. -/
structure Mat4 (α : Type) where
  c0 : Vec4 α
  c1 : Vec4 α
  c2 : Vec4 α
  c3 : Vec4 α
deriving DecidableEq, Repr

/-- Axis-aligned bounding box: base point and extent. -/
structure AABB (α : Type) where
  base : Vec3 α
  offset : Vec3 α
deriving DecidableEq, Repr

/-- Per-instance record `struct Block { vec4 model; }`. -/
structure Block (α : Type) where
  model : Vec4 α
deriving DecidableEq, Repr

/-- The calls `Drawable::render` makes on the instance buffer `model` and the
instanced draw call, in program order. `copy first last` stands for
`copy(begin(culled_blocks) + first, begin(culled_blocks) + last, data)`. -/
inductive GLCall where
  | map (ok : Bool)
  | copy (first last : Nat)
  | unmap
  | bind
  | drawElementsInstanced (instances : Nat)
deriving DecidableEq, Repr

/-- Constructor `vec3(s)`: the same scalar on every axis. -/
def Vec3.splat {α : Type} (s : α) : Vec3 α := ⟨s, s, s⟩

/-- Componentwise difference of two `vec3`. -/
def Vec3.sub {α : Type} [Sub α] (a b : Vec3 α) : Vec3 α := ⟨a.x - b.x, a.y - b.y, a.z - b.z⟩

/-- Componentwise sum of two `vec3`. -/
def Vec3.add {α : Type} [Add α] (a b : Vec3 α) : Vec3 α := ⟨a.x + b.x, a.y + b.y, a.z + b.z⟩

/-- Componentwise `a ≤ b` on `vec3`. -/
def Vec3.le {α : Type} [LE α] (a b : Vec3 α) : Prop := a.x ≤ b.x ∧ a.y ≤ b.y ∧ a.z ≤ b.z

/-! ## The batching loop of `Drawable::render` (boxes.cpp:155-169) -/

/-- Calls made by one iteration of the batching loop, at loop counter `i`,
when `model.map(data)` returns `ok`. -/
def iterationCalls (MaxInstances active_blocks i : Nat) (ok : Bool) : List GLCall :=
  let instances := min active_blocks MaxInstances
  [GLCall.map ok]
    ++ (if ok then [GLCall.copy i (i + instances), GLCall.unmap] else [])
    ++ [GLCall.bind, GLCall.drawElementsInstanced instances]

/-- The loop `for (size_t i = 0; i < active_blocks; i += Shader::MaxInstances)`.
`mapOk k` is the result of the `k`-th call of `model.map`; `fuel` bounds the
number of loop tests, `none` means the bound was hit before the loop exited. -/
def batchLoop (MaxInstances active_blocks : Nat) (mapOk : Nat → Bool) :
    Nat → Nat → Nat → Option (List GLCall)
  | 0, _, _ => none
  | fuel + 1, i, k =>
    if i < active_blocks then
      (batchLoop MaxInstances active_blocks mapOk fuel (i + MaxInstances) (k + 1)).map
        (fun rest => iterationCalls MaxInstances active_blocks i (mapOk k) ++ rest)
    else
      some []

/-- Instance counts of the instanced draw calls of a trace, in order. -/
def drawCounts : List GLCall → List Nat
  | [] => []
  | GLCall.drawElementsInstanced n :: cs => n :: drawCounts cs
  | _ :: cs => drawCounts cs

/-- Index ranges `(first, last)` read from `culled_blocks` by the uploads. -/
def copyRanges : List GLCall → List (Nat × Nat)
  | [] => []
  | GLCall.copy a b :: cs => (a, b) :: copyRanges cs
  | _ :: cs => copyRanges cs

/-- Number of chunks the loop walks through: `ceil (n / MaxInstances)`. -/
def chunkCount (MaxInstances n : Nat) : Nat :=
  (n + MaxInstances - 1) / MaxInstances

/-- How a run of the batching loop ends when the reads of `culled_blocks`
are checked: `done calls` when the loop exits, `undefined calls` when an
upload asks for a range that leaves `culled_blocks` (undefined behaviour in
C++; a bounds-checked build aborts there); `calls` are the calls made so far. -/
inductive Outcome where
  | done (calls : List GLCall)
  | undefined (calls : List GLCall)
deriving DecidableEq, Repr

/-- The outcome of a run that follows the calls `pre`. -/
def Outcome.prepend (pre : List GLCall) : Outcome → Outcome
  | Outcome.done calls => Outcome.done (pre ++ calls)
  | Outcome.undefined calls => Outcome.undefined (pre ++ calls)

/-- The batching loop with the upload checked: when `model.map` succeeds,
`copy(begin(culled_blocks) + i, begin(culled_blocks) + i + instances, data)`
is defined only if `i + instances ≤ active_blocks`, the size of
`culled_blocks`; otherwise the run ends as `undefined` right after the map.
`none` means `fuel` loop tests were not enough. -/
def batchLoopChecked (MaxInstances active_blocks : Nat) (mapOk : Nat → Bool) :
    Nat → Nat → Nat → Option Outcome
  | 0, _, _ => none
  | fuel + 1, i, k =>
    if i < active_blocks then
      if mapOk k = true ∧ ¬ (i + min active_blocks MaxInstances ≤ active_blocks) then
        some (Outcome.undefined [GLCall.map true])
      else
        (batchLoopChecked MaxInstances active_blocks mapOk fuel (i + MaxInstances) (k + 1)).map
          (Outcome.prepend (iterationCalls MaxInstances active_blocks i (mapOk k)))
    else
      some (Outcome.done [])

/-- The loop with `size_t` arithmetic made explicit: the increment
`i += Shader::MaxInstances` wraps modulo `2^64`. -/
def batchLoopSizeT (MaxInstances active_blocks : Nat) (mapOk : Nat → Bool) :
    Nat → Nat → Nat → Option (List GLCall)
  | 0, _, _ => none
  | fuel + 1, i, k =>
    if i < active_blocks then
      (batchLoopSizeT MaxInstances active_blocks mapOk fuel
          ((i + MaxInstances) % 2 ^ 64) (k + 1)).map
        (fun rest => iterationCalls MaxInstances active_blocks i (mapOk k) ++ rest)
    else
      some []

/-! ## Culling and depth sort of `Drawable::render` (boxes.cpp:135-153) -/

/-- Algorithm `std::remove_copy_if(first, last, back_inserter(out), pred)`:
every element for which `pred` is false is appended to `out`, in order. -/
def remove_copy_if {β : Type} (pred : β → Bool) : List β → List β → List β
  | [], out => out
  | b :: rest, out =>
    if pred b then remove_copy_if pred rest out
    else remove_copy_if pred rest (out ++ [b])

/-- The culling box built by the lambda at boxes.cpp:137-142:
`base = vec3(model.x, model.y, model.z) - vec3(1)`, `offset = vec3(2)`. -/
def cullAABB {α : Type} [LinearOrderedCommRing α] (block : Block α) : AABB α :=
  { base := Vec3.sub ⟨block.model.x, block.model.y, block.model.z⟩ (Vec3.splat 1)
    offset := Vec3.splat 2 }

/-- The cull step: `culled_blocks` after `remove_copy_if`. The predicate
`AABB::intersects_clip_space` belongs to the scene library and is a
parameter. -/
def cull {α : Type} [LinearOrderedCommRing α]
    (intersects_clip_space : AABB α → Mat4 α → Bool)
    (view_proj : Mat4 α) (blocks : List (Block α)) : List (Block α) :=
  remove_copy_if (fun block => !intersects_clip_space (cullAABB block) view_proj) blocks []

/-- Matrix-vector product `m * v` of glm (column-major). -/
def Mat4.mulVec {α : Type} [LinearOrderedCommRing α] (m : Mat4 α) (v : Vec4 α) : Vec4 α :=
  { x := m.c0.x * v.x + m.c1.x * v.y + m.c2.x * v.z + m.c3.x * v.w
    y := m.c0.y * v.x + m.c1.y * v.y + m.c2.y * v.z + m.c3.y * v.w
    z := m.c0.z * v.x + m.c1.z * v.y + m.c2.z * v.z + m.c3.z * v.w
    w := m.c0.w * v.x + m.c1.w * v.y + m.c2.w * v.z + m.c3.w * v.w }

/-- The sort key of boxes.cpp:148-151: `trans.z + trans.w` with
`trans = view_proj * block.model`. -/
def depth {α : Type} [LinearOrderedCommRing α] (view_proj : Mat4 α) (block : Block α) : α :=
  (view_proj.mulVec block.model).z + (view_proj.mulVec block.model).w

/-- The comparator lambda of boxes.cpp:144-153: `a_depth < b_depth`. -/
def depthLess {α : Type} [LinearOrderedCommRing α] (view_proj : Mat4 α)
    (a b : Block α) : Bool :=
  decide (depth view_proj a < depth view_proj b)

/-- Insertion of `a` into an ordered list, driven by the comparator `less`:
`a` goes in front of the first element it is less than. -/
def sortInsert {β : Type} (less : β → β → Bool) (a : β) : List β → List β
  | [] => [a]
  | b :: rest => if less a b then a :: b :: rest else b :: sortInsert less a rest

/-- Model of `std::sort(first, last, less)`: a comparison sort that only
consults the comparator (insertion sort, from the back). -/
def sort {β : Type} (less : β → β → Bool) : List β → List β
  | [] => []
  | b :: rest => sortInsert less b (sort less rest)

/-- The state of a `Drawable` that `compare_less` and `render` read. -/
structure Drawable (α : Type) where
  shader : Nat
  use_diffuse : Bool
  cache_depth : α
  blocks : List (Block α)
  aabb : AABB α
  view_proj : Mat4 α

/-- The part of `Drawable::render` from the cull to the last draw call
(boxes.cpp:135-169). -/
def Drawable.render {α : Type} [LinearOrderedCommRing α]
    (intersects_clip_space : AABB α → Mat4 α → Bool) (MaxInstances : Nat)
    (mapOk : Nat → Bool) (fuel : Nat) (d : Drawable α) : Option (List GLCall) :=
  let culled_blocks := cull intersects_clip_space d.view_proj d.blocks
  let culled_blocks := sort (depthLess d.view_proj) culled_blocks
  let active_blocks := culled_blocks.length
  batchLoop MaxInstances active_blocks mapOk fuel 0 0

/-! ## `Drawable::compare_less` (boxes.cpp:102-116) -/

/-- The comparator `this->compare_less(o)`; `heap` maps an address to the
`Drawable` stored there, `this` and `o` are addresses. -/
def compare_less {α : Type} [LinearOrder α] (heap : Nat → Drawable α) (this o : Nat) : Bool :=
  if o = this then false
  else if (heap this).shader ≠ (heap o).shader then true
  else if (heap this).use_diffuse && !(heap o).use_diffuse then true
  else if (heap this).cache_depth < (heap o).cache_depth then true
  else false

/-- A `Drawable` over `Int` with the given sort keys, no blocks and zeroed
bounding volume and matrix: concrete data to run `compare_less` on. -/
def keyedDrawable (shader : Nat) (use_diffuse : Bool) (cache_depth : Int) : Drawable Int :=
  { shader := shader
    use_diffuse := use_diffuse
    cache_depth := cache_depth
    blocks := []
    aabb := ⟨Vec3.splat 0, Vec3.splat 0⟩
    view_proj := ⟨⟨0, 0, 0, 0⟩, ⟨0, 0, 0, 0⟩, ⟨0, 0, 0, 0⟩, ⟨0, 0, 0, 0⟩⟩ }

/-! ## The `Drawable` constructor (boxes.cpp:87-97) -/

/-- The loop `for (int i = lo; i <= hi; i += step) body(i)` run on a state,
started at `i`; `none` when `fuel` loop tests were not enough. -/
def forLoop {σ : Type} (hi step : Int) (body : Int → σ → Option σ) :
    Nat → Int → σ → Option σ
  | 0, _, _ => none
  | fuel + 1, i, s =>
    if i ≤ hi then
      match body i s with
      | none => none
      | some s' => forLoop hi step body fuel (i + step) s'
    else some s

/-- The three nested loops of the constructor (boxes.cpp:89-92): one
`blocks.push_back({vec4(x, y, z, 1.0f)})` per step. The coordinates are
small integers, which `float` holds exactly. -/
def ctorBlocks (fuel : Nat) : Option (List (Block Int)) :=
  forLoop 100 4 (fun z blocks =>
    forLoop 100 4 (fun y blocks =>
      forLoop 100 4 (fun x blocks => some (blocks ++ [{ model := ⟨x, y, z, 1⟩ }]))
        fuel (-100) blocks)
      fuel (-100) blocks)
    fuel (-100) []

/-- The values the loop variables of the constructor take:
`-100, -96, ..., 100`. -/
def ctorCoords : List Int := (List.range 51).map (fun (j : Nat) => -100 + 4 * (j : Int))

/-- The bounding volume set by the constructor (boxes.cpp:93-94):
`aabb.base = vec3(-101); aabb.offset = vec3(101) - aabb.base;`. -/
def ctorAABB : AABB Int :=
  let base : Vec3 Int := Vec3.splat (-101)
  { base := base, offset := (Vec3.splat 101).sub base }

/-! ## Shader permutations (shader.hpp:55-69, 80-81) -/

/-- Record `Shader::Define`. -/
structure Define where
  start_bit : Nat
  bits : Nat
  value : Nat
  name : String
deriving DecidableEq, Repr

/-- Width in bits of `unsigned`. -/
def unsignedBits : Nat := 32

/-- Modelled from the spec: the body of `Shader::compute_permutation`, which
shader.hpp only declares. The key is `Σ (value_i << start_bit_i)` over the
global slots first and the shader's own slots after them, in registration
order, computed in `unsigned` arithmetic (modulo `2^32`). -/
def compute_permutation (global_defines defines : List Define) : Nat :=
  (global_defines ++ defines).foldl
    (fun acc d => (acc + (d.value <<< d.start_bit) % 2 ^ unsignedBits) % 2 ^ unsignedBits) 0

/-- Two slot lists describe the same slots (name and bit range), whatever
the values. -/
def sameSlots : List Define → List Define → Prop
  | [], [] => True
  | d :: ds, e :: es =>
    d.start_bit = e.start_bit ∧ d.bits = e.bits ∧ d.name = e.name ∧ sameSlots ds es
  | _, _ => False

/-- The bit ranges `[start_bit, start_bit + bits)` of two slots do not meet. -/
def disjointSlots (d e : Define) : Prop :=
  d.start_bit + d.bits ≤ e.start_bit ∨ e.start_bit + e.bits ≤ d.start_bit

/-- Correct bit allocation: ranges pairwise disjoint and inside `unsigned`. -/
def wellAllocated (ds : List Define) : Prop :=
  ds.Pairwise disjointSlots ∧ ∀ d ∈ ds, d.start_bit + d.bits ≤ unsignedBits

/-- Every value fits the width of its slot. -/
def valuesFit (ds : List Define) : Prop :=
  ∀ d ∈ ds, d.value < 2 ^ d.bits

/-- The sum `Σ (value_i << start_bit_i)` over the naturals, without wrap. -/
def slotSum : List Define → Nat
  | [] => 0
  | d :: ds => d.value <<< d.start_bit + slotSum ds

/-- A global slot of two bits at bit 0, holding `value`. -/
def sampleGlobals (value : Nat) : List Define :=
  [{ start_bit := 0, bits := 2, value := value, name := "GLOBAL" }]

/-- The slots `Scene::init` reserves (boxes.cpp:46-47), one bit each, placed
after the global slot, holding `diffuse` and `instanced`. -/
def sampleDefines (diffuse instanced : Nat) : List Define :=
  [{ start_bit := 2, bits := 1, value := diffuse, name := "DIFFUSE_MAP" },
   { start_bit := 3, bits := 1, value := instanced, name := "INSTANCED" }]

end Boxes

/-! # Theorems -/

namespace Boxes

/-! ## Batching loop -/

theorem drawCounts_append (a b : List GLCall) :
    drawCounts (a ++ b) = drawCounts a ++ drawCounts b := by
  induction a with
  | nil => rfl
  | cons c cs ih => cases c <;> simp [drawCounts, ih]

theorem drawCounts_iterationCalls (M n i : Nat) (ok : Bool) :
    drawCounts (iterationCalls M n i ok) = [min n M] := by
  cases ok <;> simp [iterationCalls, drawCounts]

theorem lt_chunkCount_iff {M n k : Nat} (hM : 0 < M) :
    k < chunkCount M n ↔ k * M < n := by
  unfold chunkCount
  rw [Nat.lt_iff_add_one_le, Nat.le_div_iff_mul_le hM, Nat.add_mul]
  omega

theorem chunkCount_le {M n : Nat} (hM : 0 < M) : chunkCount M n ≤ n := by
  by_contra h
  have h1 : n < chunkCount M n := by omega
  have h2 := (lt_chunkCount_iff hM).mp h1
  have h3 : n * 1 ≤ n * M := Nat.mul_le_mul_left n hM
  omega

/-- Closed form of the loop from chunk `k` on: with enough fuel it returns
the concatenation of the calls of the chunks `k, k+1, ..., chunkCount - 1`. -/
theorem batchLoop_from (M n : Nat) (mapOk : Nat → Bool) (hM : 0 < M) :
    ∀ (c k fuel : Nat), k + c = max k (chunkCount M n) → c < fuel →
      batchLoop M n mapOk fuel (k * M) k =
        some ((List.range' k c).flatMap
          (fun j => iterationCalls M n (j * M) (mapOk j))) := by
  intro c
  induction c with
  | zero =>
    intro k fuel hk hf
    obtain ⟨f, rfl⟩ : ∃ f, fuel = f + 1 := ⟨fuel - 1, by omega⟩
    have hge : ¬ k * M < n := by
      rw [← lt_chunkCount_iff hM]; omega
    simp [batchLoop, hge]
  | succ c ih =>
    intro k fuel hk hf
    obtain ⟨f, rfl⟩ : ∃ f, fuel = f + 1 := ⟨fuel - 1, by omega⟩
    have hlt : k * M < n := by
      rw [← lt_chunkCount_iff hM]; omega
    have hstep : k * M + M = (k + 1) * M := by rw [Nat.add_mul, Nat.one_mul]
    have hrec := ih (k + 1) f (by omega) (by omega)
    simp only [batchLoop, hlt, if_true, hstep, hrec, Option.map_some', List.range'_succ,
      List.flatMap_cons]

/-- With a positive instancing limit and more fuel than surviving instances
the loop exits, and its trace is the concatenation of the calls of the
chunks `0, ..., chunkCount - 1`. -/
theorem batchLoop_eq (M n : Nat) (mapOk : Nat → Bool) (fuel : Nat)
    (hM : 0 < M) (hfuel : n < fuel) :
    batchLoop M n mapOk fuel 0 0 =
      some ((List.range (chunkCount M n)).flatMap
        (fun j => iterationCalls M n (j * M) (mapOk j))) := by
  have h := batchLoop_from M n mapOk hM (chunkCount M n) 0 fuel (by simp)
    (lt_of_le_of_lt (chunkCount_le hM) hfuel)
  rw [List.range_eq_range']
  simpa using h

theorem drawCounts_flatMap_iterationCalls (M n : Nat) (f : Nat → Nat) (g : Nat → Bool)
    (l : List Nat) :
    drawCounts (l.flatMap (fun j => iterationCalls M n (f j) (g j))) =
      List.replicate l.length (min n M) := by
  induction l with
  | nil => rfl
  | cons a l ih =>
    rw [List.flatMap_cons, drawCounts_append, drawCounts_iterationCalls, ih]
    rfl

/-- What the code does: every instanced draw call of one `render()` is issued
with the same count `min(active_blocks, MaxInstances)`. -/
theorem drawCounts_batchLoop (M n : Nat) (mapOk : Nat → Bool) (fuel : Nat)
    (hM : 0 < M) (hfuel : n < fuel) :
    (batchLoop M n mapOk fuel 0 0).map drawCounts =
      some (List.replicate (chunkCount M n) (min n M)) := by
  rw [batchLoop_eq M n mapOk fuel hM hfuel, Option.map_some',
    drawCounts_flatMap_iterationCalls, List.length_range]

/-- The draw calls do not depend on the results of `model.map`, whatever the
fuel and the loop position. -/
theorem drawCounts_batchLoop_mapOk (M n : Nat) (mapOk mapOk' : Nat → Bool) :
    ∀ (fuel i k : Nat),
      (batchLoop M n mapOk fuel i k).map drawCounts =
        (batchLoop M n mapOk' fuel i k).map drawCounts := by
  intro fuel
  induction fuel with
  | zero => intro i k; rfl
  | succ f ih =>
    intro i k
    by_cases h : i < n
    · have e : ∀ (m : Nat → Bool),
          (batchLoop M n m (f + 1) i k).map drawCounts =
            ((batchLoop M n m f (i + M) (k + 1)).map drawCounts).map
              (fun r => min n M :: r) := by
        intro m
        simp only [batchLoop, h, if_true, Option.map_map]
        congr 1
        funext rest
        simp [drawCounts_append, drawCounts_iterationCalls]
      rw [e mapOk, e mapOk', ih]
    · simp [batchLoop, h]

/-- As long as `i += MaxInstances` stays inside `size_t`, which
`active_blocks + MaxInstances ≤ 2^64` guarantees, the loop with wrapping
arithmetic is the loop over the naturals. -/
theorem batchLoopSizeT_eq (M n : Nat) (mapOk : Nat → Bool) (hrange : n + M ≤ 2 ^ 64) :
    ∀ (fuel i k : Nat),
      batchLoopSizeT M n mapOk fuel i k = batchLoop M n mapOk fuel i k := by
  intro fuel
  induction fuel with
  | zero => intro i k; rfl
  | succ f ih =>
    intro i k
    by_cases h : i < n
    · have hmod : (i + M) % 2 ^ 64 = i + M := Nat.mod_eq_of_lt (by omega)
      simp only [batchLoopSizeT, batchLoop, h, if_true, hmod, ih]
    · simp [batchLoopSizeT, batchLoop, h]

theorem chunkCount_succ_self {M : Nat} (hM : 2 ≤ M) : chunkCount M (M + 1) = 2 := by
  unfold chunkCount
  apply Nat.div_eq_of_lt_le <;> omega

/-- C1, evaluated on the code: for every `MaxInstances ≥ 2`, when
`MaxInstances + 1` instances survive, the loop issues two instanced draw
calls with counts `MaxInstances` and `MaxInstances`; the second chunk holds
one instance, so the second call is not issued with the size of its chunk. -/
theorem batch_counts_at_limit_plus_one (M : Nat) (mapOk : Nat → Bool) (fuel : Nat)
    (hM : 2 ≤ M) (hfuel : M + 1 < fuel) :
    (batchLoop M (M + 1) mapOk fuel 0 0).map drawCounts = some [M, M] ∧
      [M, M] ≠ [min M (M + 1 - 0 * M), min M (M + 1 - 1 * M)] := by
  constructor
  · rw [drawCounts_batchLoop M (M + 1) mapOk fuel (by omega) hfuel, chunkCount_succ_self hM,
      Nat.min_eq_right (by omega)]
    rfl
  · intro h
    have h2 : M + 1 - 1 * M = 1 := by rw [Nat.one_mul]; omega
    rw [h2] at h
    simp at h
    omega

/-- C1 at `MaxInstances = 2`: three surviving instances are drawn as `2, 2`. -/
theorem batch_counts_at_limit_plus_one_witness :
    (batchLoop 2 3 (fun _ => true) 4 0 0).map drawCounts = some [2, 2] ∧
      [2, 2] ≠ [min 2 (2 + 1 - 0 * 2), min 2 (2 + 1 - 1 * 2)] :=
  batch_counts_at_limit_plus_one 2 (fun _ => true) 4 (by decide) (by decide)

/-- C2, evaluated on the code: for every `MaxInstances ≥ 2`, when
`MaxInstances + 1` instances survive, the instance counts of the draw calls
add up to `2 * MaxInstances`, which is not the number `MaxInstances + 1` of
culled instances. -/
theorem batch_counts_sum_exceeds_culled (M : Nat) (mapOk : Nat → Bool) (fuel : Nat)
    (hM : 2 ≤ M) (hfuel : M + 1 < fuel) :
    (batchLoop M (M + 1) mapOk fuel 0 0).map (fun calls => (drawCounts calls).sum) =
        some (2 * M) ∧
      2 * M ≠ M + 1 := by
  refine ⟨?_, by omega⟩
  have h := drawCounts_batchLoop M (M + 1) mapOk fuel (by omega) hfuel
  cases hb : batchLoop M (M + 1) mapOk fuel 0 0 with
  | none => rw [hb] at h; cases h
  | some calls =>
    rw [hb, Option.map_some', Option.some_inj, chunkCount_succ_self hM,
      Nat.min_eq_right (by omega)] at h
    rw [Option.map_some', h]
    simp [List.replicate]
    omega

/-- C2 at `MaxInstances = 4`: five surviving instances, counts adding up to `8`. -/
theorem batch_counts_sum_exceeds_culled_witness :
    (batchLoop 4 5 (fun _ => true) 6 0 0).map (fun calls => (drawCounts calls).sum) =
        some (2 * 4) ∧
      2 * 4 ≠ 4 + 1 :=
  batch_counts_sum_exceeds_culled 4 (fun _ => true) 6 (by decide) (by decide)

/-- On the loop with checked uploads: when no successful map is followed by
an upload that leaves `culled_blocks`, the run is defined, exits for any fuel
above `n`, and makes the calls of the chunks `k, ..., chunkCount - 1`. -/
theorem batchLoopChecked_from (M n : Nat) (mapOk : Nat → Bool) (hM : 0 < M)
    (hsafe : ∀ j, j < chunkCount M n → mapOk j = true → j * M + min n M ≤ n) :
    ∀ (c k fuel : Nat), k + c = max k (chunkCount M n) → c < fuel →
      batchLoopChecked M n mapOk fuel (k * M) k =
        some (Outcome.done ((List.range' k c).flatMap
          (fun j => iterationCalls M n (j * M) (mapOk j)))) := by
  intro c
  induction c with
  | zero =>
    intro k fuel hk hf
    obtain ⟨f, rfl⟩ : ∃ f, fuel = f + 1 := ⟨fuel - 1, by omega⟩
    have hge : ¬ k * M < n := by
      rw [← lt_chunkCount_iff hM]; omega
    simp [batchLoopChecked, hge]
  | succ c ih =>
    intro k fuel hk hf
    obtain ⟨f, rfl⟩ : ∃ f, fuel = f + 1 := ⟨fuel - 1, by omega⟩
    have hkc : k < chunkCount M n := by omega
    have hlt : k * M < n := (lt_chunkCount_iff hM).mp hkc
    have hstep : k * M + M = (k + 1) * M := by rw [Nat.add_mul, Nat.one_mul]
    have hrec := ih (k + 1) f (by omega) (by omega)
    have hok : ¬ (mapOk k = true ∧ ¬ (k * M + min n M ≤ n)) := by
      rintro ⟨h1, h2⟩
      exact h2 (hsafe k hkc h1)
    simp only [batchLoopChecked, hlt, if_true, hok, if_false, hstep, hrec, Option.map_some',
      Outcome.prepend, List.range'_succ, List.flatMap_cons]

/-- The runs without an overrunning upload are defined and make the calls of
`batchLoop`: `ceil (n / MaxInstances)` chunks, each drawn with
`min n MaxInstances` instances. This covers `n ≤ MaxInstances`, `n` a
multiple of `MaxInstances`, and the runs whose last map fails. -/
theorem batchLoopChecked_safe (M n : Nat) (mapOk : Nat → Bool) (fuel : Nat)
    (hM : 0 < M) (hfuel : n < fuel)
    (hsafe : ∀ j, j < chunkCount M n → mapOk j = true → j * M + min n M ≤ n) :
    batchLoopChecked M n mapOk fuel 0 0 =
        some (Outcome.done ((List.range (chunkCount M n)).flatMap
          (fun j => iterationCalls M n (j * M) (mapOk j)))) ∧
      batchLoop M n mapOk fuel 0 0 =
        some ((List.range (chunkCount M n)).flatMap
          (fun j => iterationCalls M n (j * M) (mapOk j))) := by
  have h := batchLoopChecked_from M n mapOk hM hsafe (chunkCount M n) 0 fuel (by simp)
    (lt_of_le_of_lt (chunkCount_le hM) hfuel)
  refine ⟨?_, batchLoop_eq M n mapOk fuel hM hfuel⟩
  rw [List.range_eq_range']
  simpa using h

/-- Up to the instancing limit nothing overruns: for `n ≤ MaxInstances` the
checked run is defined for every map pattern, with no draw call when `n = 0`
and one draw call of `n` instances otherwise (so one call of `MaxInstances`
instances when `n = MaxInstances`). -/
theorem batchLoopChecked_at_most_limit (M n : Nat) (mapOk : Nat → Bool) (fuel : Nat)
    (hM : 0 < M) (hn : n ≤ M) (hfuel : n < fuel) :
    ∃ calls, batchLoopChecked M n mapOk fuel 0 0 = some (Outcome.done calls) ∧
      drawCounts calls = if n = 0 then [] else [n] := by
  have hsafe : ∀ j, j < chunkCount M n → mapOk j = true → j * M + min n M ≤ n := by
    intro j hj _
    have hjn : j * M < n := (lt_chunkCount_iff hM).mp hj
    have hj0 : j = 0 := by
      by_contra hne
      have : 1 * M ≤ j * M := Nat.mul_le_mul_right M (by omega)
      omega
    subst hj0
    rw [Nat.min_eq_left hn]
    omega
  refine ⟨_, (batchLoopChecked_safe M n mapOk fuel hM hfuel hsafe).1, ?_⟩
  rw [drawCounts_flatMap_iterationCalls, List.length_range, Nat.min_eq_left hn]
  by_cases h0 : n = 0
  · subst h0
    have : chunkCount M 0 = 0 := by
      unfold chunkCount
      exact Nat.div_eq_of_lt (by omega)
    simp [this]
  · have : chunkCount M n = 1 := by
      unfold chunkCount
      apply Nat.div_eq_of_lt_le <;> omega
    simp [this, h0]

/-- C9, evaluated on the code: for every `MaxInstances ≥ 2`, with a culled
list of length `MaxInstances + 1` and every map succeeding, the uploads copy
the ranges `[0, MaxInstances)` and `[MaxInstances, 2 * MaxInstances)`; the
second one ends past the end `MaxInstances + 1` of the culled list. -/
theorem batch_copy_range_past_end (M : Nat) (fuel : Nat)
    (hM : 2 ≤ M) (hfuel : M + 1 < fuel) :
    (batchLoop M (M + 1) (fun _ => true) fuel 0 0).map copyRanges =
        some [(0, M), (M, M + M)] ∧
      ¬ (M + M ≤ M + 1) := by
  refine ⟨?_, by omega⟩
  rw [batchLoop_eq M (M + 1) _ fuel (by omega) hfuel, chunkCount_succ_self hM]
  simp [List.range_succ, iterationCalls, copyRanges, Nat.min_eq_right (show M ≤ M + 1 by omega)]

/-- C9 at `MaxInstances = 2`: the second upload of a 3-element list reads `[2, 4)`. -/
theorem batch_copy_range_past_end_witness :
    (batchLoop 2 3 (fun _ => true) 4 0 0).map copyRanges = some [(0, 2), (2, 2 + 2)] ∧
      ¬ (2 + 2 ≤ 2 + 1) :=
  batch_copy_range_past_end 2 4 (by decide) (by decide)

/-! ## Culling -/

theorem remove_copy_if_eq {β : Type} (pred : β → Bool) :
    ∀ (l out : List β), remove_copy_if pred l out = out ++ l.filter (fun b => !pred b) := by
  intro l
  induction l with
  | nil => intro out; simp [remove_copy_if]
  | cons b rest ih =>
    intro out
    cases hb : pred b <;> simp [remove_copy_if, hb, ih]

/-- C4: the culled list is the order-preserving sublist of `blocks` made of
the blocks whose local box (base = position.xyz - 1, offset = 2 on every
axis) intersects clip space: it is `blocks` filtered by the predicate, a
sublist of `blocks`, and a block is in it exactly when it is in `blocks` and
its box intersects. -/
theorem cull_is_intersecting_sublist {α : Type} [LinearOrderedCommRing α]
    (intersects_clip_space : AABB α → Mat4 α → Bool) (view_proj : Mat4 α)
    (blocks : List (Block α)) :
    cull intersects_clip_space view_proj blocks =
        blocks.filter (fun b => intersects_clip_space
          { base := ⟨b.model.x - 1, b.model.y - 1, b.model.z - 1⟩, offset := ⟨2, 2, 2⟩ }
          view_proj) ∧
      List.Sublist (cull intersects_clip_space view_proj blocks) blocks ∧
      ∀ b, b ∈ cull intersects_clip_space view_proj blocks ↔
        (b ∈ blocks ∧ intersects_clip_space
          { base := ⟨b.model.x - 1, b.model.y - 1, b.model.z - 1⟩, offset := ⟨2, 2, 2⟩ }
          view_proj = true) := by
  have h : cull intersects_clip_space view_proj blocks =
      blocks.filter (fun b => intersects_clip_space
        { base := ⟨b.model.x - 1, b.model.y - 1, b.model.z - 1⟩, offset := ⟨2, 2, 2⟩ }
        view_proj) := by
    unfold cull
    rw [remove_copy_if_eq]
    simp [cullAABB, Vec3.sub, Vec3.splat]
  refine ⟨h, ?_, ?_⟩
  · rw [h]; exact List.filter_sublist _
  · intro b; rw [h, List.mem_filter]

/-! ## Depth sort -/

theorem sortInsert_perm {β : Type} (less : β → β → Bool) (a : β) :
    ∀ l : List β, List.Perm (sortInsert less a l) (a :: l) := by
  intro l
  induction l with
  | nil => exact List.Perm.refl _
  | cons b rest ih =>
    unfold sortInsert
    split
    · exact List.Perm.refl _
    · exact List.Perm.trans (List.Perm.cons b ih) (List.Perm.swap a b rest)

theorem sort_perm {β : Type} (less : β → β → Bool) :
    ∀ l : List β, List.Perm (sort less l) l := by
  intro l
  induction l with
  | nil => exact List.Perm.refl _
  | cons b rest ih =>
    exact List.Perm.trans (sortInsert_perm less b (sort less rest)) (List.Perm.cons b ih)

theorem sortInsert_sorted {β κ : Type} [LinearOrder κ] (key : β → κ) (a : β) :
    ∀ l : List β, l.Pairwise (fun x y => key x ≤ key y) →
      (sortInsert (fun x y => decide (key x < key y)) a l).Pairwise
        (fun x y => key x ≤ key y) := by
  intro l
  induction l with
  | nil => intro _; simp [sortInsert]
  | cons b rest ih =>
    intro hl
    rw [List.pairwise_cons] at hl
    unfold sortInsert
    by_cases hab : key a < key b
    · simp only [hab, decide_True, if_true]
      refine List.Pairwise.cons ?_ (List.Pairwise.cons hl.1 hl.2)
      intro x hx
      rcases List.mem_cons.mp hx with rfl | hx
      · exact le_of_lt hab
      · exact le_trans (le_of_lt hab) (hl.1 x hx)
    · simp only [hab, decide_False, Bool.false_eq_true, if_false]
      refine List.Pairwise.cons ?_ (ih hl.2)
      intro x hx
      have hx' := (sortInsert_perm _ a rest).subset hx
      rcases List.mem_cons.mp hx' with rfl | hx'
      · exact le_of_not_lt hab
      · exact hl.1 x hx'

theorem sort_sorted {β κ : Type} [LinearOrder κ] (key : β → κ) :
    ∀ l : List β, (sort (fun x y => decide (key x < key y)) l).Pairwise
      (fun x y => key x ≤ key y) := by
  intro l
  induction l with
  | nil => exact List.Pairwise.nil
  | cons b rest ih => exact sortInsert_sorted key b _ ih

/-- C5: over exact arithmetic, the depth sort returns a permutation of the
culled list that is non-decreasing in
`depth p = (view_proj * p).z + (view_proj * p).w`. -/
theorem depth_sort_perm_sorted {α : Type} [LinearOrderedCommRing α] (view_proj : Mat4 α)
    (culled_blocks : List (Block α)) :
    List.Perm (sort (depthLess view_proj) culled_blocks) culled_blocks ∧
      List.Sorted
        (fun a b => (view_proj.mulVec a.model).z + (view_proj.mulVec a.model).w ≤
          (view_proj.mulVec b.model).z + (view_proj.mulVec b.model).w)
        (sort (depthLess view_proj) culled_blocks) :=
  ⟨sort_perm _ _, sort_sorted (depth view_proj) culled_blocks⟩

/-- The loop of `Drawable::render` runs on the number of blocks of the
drawable whose culling box intersects clip space. -/
theorem render_eq_batchLoop {α : Type} [LinearOrderedCommRing α]
    (intersects_clip_space : AABB α → Mat4 α → Bool) (M : Nat) (mapOk : Nat → Bool)
    (fuel : Nat) (d : Drawable α) :
    d.render intersects_clip_space M mapOk fuel =
      batchLoop M
        (d.blocks.filter (fun b => intersects_clip_space (cullAABB b) d.view_proj)).length
        mapOk fuel 0 0 := by
  unfold Drawable.render cull
  simp only [(sort_perm _ _).length_eq, remove_copy_if_eq, List.nil_append, Bool.not_not]

/-! ## `compare_less` -/

/-- No `Drawable` is less than itself. -/
theorem compare_less_irrefl {α : Type} [LinearOrder α] (heap : Nat → Drawable α) (a : Nat) :
    compare_less heap a a = false := by
  simp [compare_less]

/-- C6, evaluated on the code: two distinct `Drawable`s that differ in their
shader are each less than the other, so `compare_less` is not asymmetric; the
same happens with one shader when the first uses a diffuse map and the second,
which does not, has the smaller cache depth; and with a third object equal to
the first, `a < b` and `b < a` hold while `a < a` does not, so it is not
transitive either. -/
theorem compare_less_not_asymmetric :
    (compare_less (fun a => keyedDrawable a false 0) 0 1 = true ∧
      compare_less (fun a => keyedDrawable a false 0) 1 0 = true) ∧
    (compare_less (fun a => keyedDrawable 7 (decide (a = 0)) (if a = 0 then 5 else 1)) 0 1 = true ∧
      compare_less (fun a => keyedDrawable 7 (decide (a = 0)) (if a = 0 then 5 else 1)) 1 0 = true) ∧
    compare_less (fun a => keyedDrawable a false 0) 0 0 = false := by
  decide

/-! ## Constructor -/

/-- A counted loop whose body only appends `g i` to the state runs `c` times
when `c` is the number of values `i, i + step, ...` not above `hi`, and
returns the state extended by the `g` of these values, in order. -/
theorem forLoop_append {β : Type} (hi step : Int) (body : Int → List β → Option (List β))
    (g : Int → List β) (hbody : ∀ j s, body j s = some (s ++ g j)) :
    ∀ (c fuel : Nat) (i : Int) (s : List β), c < fuel →
      (∀ j : Nat, j < c → i + step * (j : Int) ≤ hi) → hi < i + step * (c : Int) →
      forLoop hi step body fuel i s =
        some (s ++ (List.range c).flatMap (fun j => g (i + step * (j : Int)))) := by
  intro c
  induction c with
  | zero =>
    intro fuel i s hf _ hexit
    obtain ⟨f, rfl⟩ : ∃ f, fuel = f + 1 := ⟨fuel - 1, by omega⟩
    have : ¬ i ≤ hi := by simpa using hexit
    simp [forLoop, this]
  | succ c ih =>
    intro fuel i s hf hin hexit
    obtain ⟨f, rfl⟩ : ∃ f, fuel = f + 1 := ⟨fuel - 1, by omega⟩
    have h0 : i ≤ hi := by simpa using hin 0 (by omega)
    have hrec := ih f (i + step) (s ++ g i) (by omega)
      (by
        intro j hj
        have := hin (j + 1) (by omega)
        push_cast at this
        linarith)
      (by push_cast at hexit; linarith)
    simp only [forLoop, h0, if_true, hbody, hrec, List.range_succ_eq_map, List.flatMap_cons,
      List.flatMap_map, List.append_assoc]
    have hsucc : ∀ a : Nat, i + step * ((a.succ : Nat) : Int) = i + step + step * (a : Int) := by
      intro a
      push_cast
      ring
    have hzero : i + step * ((0 : Nat) : Int) = i := by simp
    simp only [hsucc, hzero]

/-- The loops of the constructor, all `for (int v = -100; v <= 100; v += 4)`,
run over `ctorCoords` when given at least 52 loop tests. -/
theorem forLoop_ctorCoords {β : Type} (body : Int → List β → Option (List β))
    (g : Int → List β) (hbody : ∀ j s, body j s = some (s ++ g j))
    (fuel : Nat) (hfuel : 52 ≤ fuel) (s : List β) :
    forLoop 100 4 body fuel (-100) s = some (s ++ ctorCoords.flatMap g) := by
  rw [forLoop_append 100 4 body g hbody 51 fuel (-100) s (by omega)
    (by intro j hj; omega) (by norm_num)]
  simp [ctorCoords, List.flatMap_map, Function.comp]

theorem ctorBlocks_eq (fuel : Nat) (hfuel : 52 ≤ fuel) :
    ctorBlocks fuel = some (ctorCoords.flatMap (fun z => ctorCoords.flatMap (fun y =>
      ctorCoords.flatMap (fun x => [({ model := ⟨x, y, z, 1⟩ } : Block Int)])))) := by
  unfold ctorBlocks
  rw [forLoop_ctorCoords _ (fun z => ctorCoords.flatMap (fun y =>
      ctorCoords.flatMap (fun x => [({ model := ⟨x, y, z, 1⟩ } : Block Int)]))) _ fuel hfuel]
  · simp
  · intro z s
    rw [forLoop_ctorCoords _ (fun y =>
      ctorCoords.flatMap (fun x => [({ model := ⟨x, y, z, 1⟩ } : Block Int)])) _ fuel hfuel]
    intro y s
    rw [forLoop_ctorCoords _ (fun x => [({ model := ⟨x, y, z, 1⟩ } : Block Int)]) _ fuel hfuel]
    intro x s
    rfl

theorem mem_ctorCoords (v : Int) :
    v ∈ ctorCoords ↔ ∃ j : Nat, j ≤ 50 ∧ v = -100 + 4 * (j : Int) := by
  simp only [ctorCoords, List.mem_map, List.mem_range]
  constructor
  · rintro ⟨j, hj, rfl⟩; exact ⟨j, by omega, rfl⟩
  · rintro ⟨j, hj, rfl⟩; exact ⟨j, by omega, rfl⟩

/-- C10: the constructor sets `aabb` to base `(-101, -101, -101)` and offset
`(202, 202, 202)`, so `base ≤ base + offset` on every axis; given at least 52
loop tests per loop it creates exactly the blocks `(x, y, z, 1)` with
`x, y, z` in `-100, -96, ..., 100`; and for each of them the culling box
`[position - 1, position + 1]` lies inside `[aabb.base, aabb.base +
aabb.offset]` on every axis. -/
theorem ctor_aabb_encloses_blocks (fuel : Nat) (hfuel : 52 ≤ fuel) :
    ctorAABB.base = ⟨-101, -101, -101⟩ ∧ ctorAABB.offset = ⟨202, 202, 202⟩ ∧
      Vec3.le ctorAABB.base (ctorAABB.base.add ctorAABB.offset) ∧
      ∃ blocks, ctorBlocks fuel = some blocks ∧
        (∀ b : Block Int, b ∈ blocks ↔ ∃ i j k : Nat, i ≤ 50 ∧ j ≤ 50 ∧ k ≤ 50 ∧
          b = { model := ⟨-100 + 4 * (i : Int), -100 + 4 * (j : Int),
            -100 + 4 * (k : Int), 1⟩ }) ∧
        ∀ b ∈ blocks,
          (cullAABB b).base = ⟨b.model.x - 1, b.model.y - 1, b.model.z - 1⟩ ∧
          (cullAABB b).base.add (cullAABB b).offset =
            ⟨b.model.x + 1, b.model.y + 1, b.model.z + 1⟩ ∧
          Vec3.le ctorAABB.base (cullAABB b).base ∧
          Vec3.le ((cullAABB b).base.add (cullAABB b).offset)
            (ctorAABB.base.add ctorAABB.offset) := by
  have hmem : ∀ b : Block Int,
      b ∈ ctorCoords.flatMap (fun z => ctorCoords.flatMap (fun y =>
        ctorCoords.flatMap (fun x => [({ model := ⟨x, y, z, 1⟩ } : Block Int)]))) ↔
      ∃ i j k : Nat, i ≤ 50 ∧ j ≤ 50 ∧ k ≤ 50 ∧
        b = { model := ⟨-100 + 4 * (i : Int), -100 + 4 * (j : Int),
          -100 + 4 * (k : Int), 1⟩ } := by
    intro b
    simp only [List.mem_flatMap, List.mem_singleton, mem_ctorCoords]
    constructor
    · rintro ⟨z, ⟨k, hk, rfl⟩, y, ⟨j, hj, rfl⟩, x, ⟨i, hi, rfl⟩, rfl⟩
      exact ⟨i, j, k, hi, hj, hk, rfl⟩
    · rintro ⟨i, j, k, hi, hj, hk, rfl⟩
      exact ⟨_, ⟨k, hk, rfl⟩, _, ⟨j, hj, rfl⟩, _, ⟨i, hi, rfl⟩, rfl⟩
  refine ⟨rfl, rfl, ⟨by decide, by decide, by decide⟩, _, ctorBlocks_eq fuel hfuel, hmem, ?_⟩
  intro b hb
  obtain ⟨i, j, k, hi, hj, hk, rfl⟩ := (hmem b).mp hb
  refine ⟨rfl, ?_, ?_, ?_⟩
  · simp only [cullAABB, Vec3.sub, Vec3.splat, Vec3.add]
    congr 1 <;> ring
  · simp only [ctorAABB, cullAABB, Vec3.sub, Vec3.splat, Vec3.le]
    omega
  · simp only [ctorAABB, cullAABB, Vec3.sub, Vec3.splat, Vec3.le, Vec3.add]
    omega

/-- C10 with 52 loop tests per loop, the least number that lets each loop exit. -/
theorem ctor_aabb_encloses_blocks_witness :
    ctorAABB.base = ⟨-101, -101, -101⟩ ∧ ctorAABB.offset = ⟨202, 202, 202⟩ ∧
      Vec3.le ctorAABB.base (ctorAABB.base.add ctorAABB.offset) ∧
      ∃ blocks, ctorBlocks 52 = some blocks ∧
        (∀ b : Block Int, b ∈ blocks ↔ ∃ i j k : Nat, i ≤ 50 ∧ j ≤ 50 ∧ k ≤ 50 ∧
          b = { model := ⟨-100 + 4 * (i : Int), -100 + 4 * (j : Int),
            -100 + 4 * (k : Int), 1⟩ }) ∧
        ∀ b ∈ blocks,
          (cullAABB b).base = ⟨b.model.x - 1, b.model.y - 1, b.model.z - 1⟩ ∧
          (cullAABB b).base.add (cullAABB b).offset =
            ⟨b.model.x + 1, b.model.y + 1, b.model.z + 1⟩ ∧
          Vec3.le ctorAABB.base (cullAABB b).base ∧
          Vec3.le ((cullAABB b).base.add (cullAABB b).offset)
            (ctorAABB.base.add ctorAABB.offset) :=
  ctor_aabb_encloses_blocks 52 (by decide)

/-! ## Shader permutations -/

theorem nat_add_eq_lor : ∀ (a b : Nat), a &&& b = 0 → a + b = a ||| b := by
  intro a
  induction a using Nat.binaryRec with
  | z => intro b _; simp
  | f x m ih =>
    intro b
    induction b using Nat.bitCasesOn with
    | h y n =>
      intro h
      rw [Nat.land_bit, Nat.bit_eq_zero_iff] at h
      rw [Nat.lor_bit, ← ih n h.1]
      simp only [Nat.bit_val]
      have := h.2
      cases x <;> cases y <;> simp at this ⊢ <;> omega

theorem testBit_add_of_disjoint (a b : Nat)
    (h : ∀ k, ¬ (a.testBit k = true ∧ b.testBit k = true)) (k : Nat) :
    (a + b).testBit k = (a.testBit k || b.testBit k) := by
  have hand : a &&& b = 0 := by
    apply Nat.eq_of_testBit_eq
    intro i
    rw [Nat.testBit_and, Nat.zero_testBit]
    have := h i
    cases ha : a.testBit i <;> cases hb : b.testBit i <;> simp_all
  rw [nat_add_eq_lor a b hand, Nat.testBit_or]

/-- A set bit of `value << start_bit` lies in the slot's range when the value fits. -/
theorem testBit_slot {d : Define} (hfit : d.value < 2 ^ d.bits) {k : Nat}
    (hk : (d.value <<< d.start_bit).testBit k = true) :
    d.start_bit ≤ k ∧ k < d.start_bit + d.bits := by
  rw [Nat.testBit_shiftLeft] at hk
  simp only [Bool.and_eq_true, decide_eq_true_eq] at hk
  refine ⟨hk.1, ?_⟩
  by_contra hlt
  have hge : d.bits ≤ k - d.start_bit := by omega
  have : d.value < 2 ^ (k - d.start_bit) :=
    lt_of_lt_of_le hfit (Nat.pow_le_pow_right (by decide) hge)
  rw [Nat.testBit_lt_two_pow this] at hk
  exact Bool.false_ne_true hk.2

theorem testBit_slotSum_covered :
    ∀ (ds : List Define), ds.Pairwise disjointSlots → valuesFit ds → ∀ k,
      (slotSum ds).testBit k = true →
        ∃ d ∈ ds, d.start_bit ≤ k ∧ k < d.start_bit + d.bits := by
  intro ds
  induction ds with
  | nil => intro _ _ k hk; simp [slotSum] at hk
  | cons d ds ih =>
    intro hpw hfit k hk
    rw [List.pairwise_cons] at hpw
    have hfd : d.value < 2 ^ d.bits := hfit d (List.mem_cons_self _ _)
    have hfds : valuesFit ds := fun e he => hfit e (List.mem_cons_of_mem _ he)
    have hdis : ∀ j, ¬ ((d.value <<< d.start_bit).testBit j = true ∧
        (slotSum ds).testBit j = true) := by
      rintro j ⟨h1, h2⟩
      obtain ⟨e, he, hlo, hhi⟩ := ih hpw.2 hfds j h2
      have hr := testBit_slot hfd h1
      have := hpw.1 e he
      unfold disjointSlots at this
      omega
    rw [slotSum, testBit_add_of_disjoint _ _ hdis, Bool.or_eq_true] at hk
    rcases hk with hk | hk
    · exact ⟨d, List.mem_cons_self _ _, testBit_slot hfd hk⟩
    · obtain ⟨e, he, hr⟩ := ih hpw.2 hfds k hk
      exact ⟨e, List.mem_cons_of_mem _ he, hr⟩

theorem testBit_slotSum_cons (d : Define) (ds : List Define)
    (hpw : (d :: ds).Pairwise disjointSlots) (hfit : valuesFit (d :: ds)) (k : Nat) :
    (slotSum (d :: ds)).testBit k =
      ((d.value <<< d.start_bit).testBit k || (slotSum ds).testBit k) := by
  rw [List.pairwise_cons] at hpw
  have hfd : d.value < 2 ^ d.bits := hfit d (List.mem_cons_self _ _)
  have hfds : valuesFit ds := fun e he => hfit e (List.mem_cons_of_mem _ he)
  rw [slotSum]
  apply testBit_add_of_disjoint
  rintro j ⟨h1, h2⟩
  obtain ⟨e, he, hlo, hhi⟩ := testBit_slotSum_covered ds hpw.2 hfds j h2
  have hr := testBit_slot hfd h1
  have := hpw.1 e he
  unfold disjointSlots at this
  omega

theorem slotSum_lt (ds : List Define) (h : wellAllocated ds) (hfit : valuesFit ds) :
    slotSum ds < 2 ^ unsignedBits := by
  apply Nat.lt_pow_two_of_testBit
  intro k hk
  by_contra hne
  have hk' : (slotSum ds).testBit k = true := by simpa using hne
  obtain ⟨d, hd, _, hhi⟩ := testBit_slotSum_covered ds h.1 hfit k hk'
  have := h.2 d hd
  omega

theorem two_pow_unsignedBits : 2 ^ unsignedBits = 4294967296 := by
  norm_num [unsignedBits]

theorem foldl_permutation_mod (ds : List Define) : ∀ acc : Nat,
    (ds.foldl (fun acc d => (acc + (d.value <<< d.start_bit) % 2 ^ unsignedBits)
      % 2 ^ unsignedBits) acc) % 2 ^ unsignedBits = (acc + slotSum ds) % 2 ^ unsignedBits := by
  induction ds with
  | nil => intro acc; simp [slotSum]
  | cons d ds ih =>
    intro acc
    rw [List.foldl_cons, ih, slotSum, two_pow_unsignedBits]
    omega

/-- Under a correct bit allocation and fitting values the `unsigned` key is
the exact sum: nothing wraps. -/
theorem compute_permutation_eq_slotSum (g l : List Define) (h : wellAllocated (g ++ l))
    (hfit : valuesFit (g ++ l)) :
    compute_permutation g l % 2 ^ unsignedBits = slotSum (g ++ l) := by
  unfold compute_permutation
  rw [foldl_permutation_mod, Nat.zero_add, Nat.mod_eq_of_lt (slotSum_lt _ h hfit)]

theorem sameSlots_mem : ∀ (ds es : List Define), sameSlots ds es →
    ∀ x ∈ es, ∃ y ∈ ds, y.start_bit = x.start_bit ∧ y.bits = x.bits := by
  intro ds
  induction ds with
  | nil =>
    intro es hs x hx
    cases es with
    | nil => cases hx
    | cons e es => exact absurd hs (by simp [sameSlots])
  | cons d ds ih =>
    intro es hs x hx
    cases es with
    | nil => cases hx
    | cons e es =>
      obtain ⟨hstart, hbits, _, hrest⟩ := hs
      rcases List.mem_cons.mp hx with rfl | hx
      · exact ⟨d, List.mem_cons_self _ _, hstart, hbits⟩
      · obtain ⟨y, hy, h⟩ := ih es hrest x hx
        exact ⟨y, List.mem_cons_of_mem _ hy, h⟩

theorem sameSlots_pairwise : ∀ (ds es : List Define), sameSlots ds es →
    ds.Pairwise disjointSlots → es.Pairwise disjointSlots := by
  intro ds
  induction ds with
  | nil =>
    intro es hs _
    cases es with
    | nil => exact List.Pairwise.nil
    | cons e es => exact absurd hs (by simp [sameSlots])
  | cons d ds ih =>
    intro es hs hp
    cases es with
    | nil => exact List.Pairwise.nil
    | cons e es =>
      obtain ⟨hstart, hbits, _, hrest⟩ := hs
      rw [List.pairwise_cons] at hp
      refine List.Pairwise.cons ?_ (ih es hrest hp.2)
      intro x hx
      obtain ⟨y, hy, h1, h2⟩ := sameSlots_mem ds es hrest x hx
      have := hp.1 y hy
      unfold disjointSlots at this ⊢
      omega

theorem sameSlots_wellAllocated (ds es : List Define) (hs : sameSlots ds es)
    (h : wellAllocated ds) : wellAllocated es := by
  refine ⟨sameSlots_pairwise ds es hs h.1, ?_⟩
  intro x hx
  obtain ⟨y, hy, h1, h2⟩ := sameSlots_mem ds es hs x hx
  have := h.2 y hy
  omega

theorem sameSlots_length : ∀ (ds es : List Define), sameSlots ds es →
    ds.length = es.length := by
  intro ds
  induction ds with
  | nil =>
    intro es hs
    cases es with
    | nil => rfl
    | cons e es => exact absurd hs (by simp [sameSlots])
  | cons d ds ih =>
    intro es hs
    cases es with
    | nil => exact absurd hs (by simp [sameSlots])
    | cons e es => simp [ih es hs.2.2.2]

theorem sameSlots_append : ∀ (ds es ds' es' : List Define), sameSlots ds es →
    sameSlots ds' es' → sameSlots (ds ++ ds') (es ++ es') := by
  intro ds
  induction ds with
  | nil =>
    intro es ds' es' hs hs'
    cases es with
    | nil => exact hs'
    | cons e es => exact absurd hs (by simp [sameSlots])
  | cons d ds ih =>
    intro es ds' es' hs hs'
    cases es with
    | nil => exact absurd hs (by simp [sameSlots])
    | cons e es => exact ⟨hs.1, hs.2.1, hs.2.2.1, ih es ds' es' hs.2.2.2 hs'⟩

theorem slotSum_injective : ∀ (ds es : List Define), sameSlots ds es →
    ds.Pairwise disjointSlots → es.Pairwise disjointSlots → valuesFit ds → valuesFit es →
    slotSum ds = slotSum es → ds = es := by
  intro ds
  induction ds with
  | nil =>
    intro es hs
    cases es with
    | nil => intros; rfl
    | cons e es => exact absurd hs (by simp [sameSlots])
  | cons d ds ih =>
    intro es hs hpd hpe hfd hfe hsum
    cases es with
    | nil => exact absurd hs (by simp [sameSlots])
    | cons e es =>
      obtain ⟨hstart, hbits, hname, hrest⟩ := hs
      have hvd : d.value < 2 ^ d.bits := hfd d (List.mem_cons_self _ _)
      have hve : e.value < 2 ^ e.bits := hfe e (List.mem_cons_self _ _)
      have hfds : valuesFit ds := fun x hx => hfd x (List.mem_cons_of_mem _ hx)
      have hfes : valuesFit es := fun x hx => hfe x (List.mem_cons_of_mem _ hx)
      have hpd' := List.pairwise_cons.mp hpd
      have hpe' := List.pairwise_cons.mp hpe
      -- the tails leave the bits of the head slot clear
      have clear_d : ∀ k, d.start_bit ≤ k → k < d.start_bit + d.bits →
          (slotSum ds).testBit k = false := by
        intro k h1 h2
        by_contra hne
        have hk : (slotSum ds).testBit k = true := by simpa using hne
        obtain ⟨x, hx, hlo, hhi⟩ := testBit_slotSum_covered ds hpd'.2 hfds k hk
        have := hpd'.1 x hx
        unfold disjointSlots at this
        omega
      have clear_e : ∀ k, e.start_bit ≤ k → k < e.start_bit + e.bits →
          (slotSum es).testBit k = false := by
        intro k h1 h2
        by_contra hne
        have hk : (slotSum es).testBit k = true := by simpa using hne
        obtain ⟨x, hx, hlo, hhi⟩ := testBit_slotSum_covered es hpe'.2 hfes k hk
        have := hpe'.1 x hx
        unfold disjointSlots at this
        omega
      have hhead : d.value <<< d.start_bit = e.value <<< e.start_bit := by
        apply Nat.eq_of_testBit_eq
        intro k
        by_cases hin : d.start_bit ≤ k ∧ k < d.start_bit + d.bits
        · have h1 := testBit_slotSum_cons d ds hpd hfd k
          have h2 := testBit_slotSum_cons e es hpe hfe k
          rw [clear_d k hin.1 hin.2, Bool.or_false] at h1
          rw [clear_e k (by omega) (by omega), Bool.or_false] at h2
          rw [← h1, ← h2, hsum]
        · have hd0 : (d.value <<< d.start_bit).testBit k = false := by
            by_contra hne
            exact hin (testBit_slot hvd (by simpa using hne))
          have he0 : (e.value <<< e.start_bit).testBit k = false := by
            by_contra hne
            have := testBit_slot hve (show (e.value <<< e.start_bit).testBit k = true by
              simpa using hne)
            exact hin (by omega)
          rw [hd0, he0]
      have hval : d.value = e.value := by
        rw [hstart, Nat.shiftLeft_eq, Nat.shiftLeft_eq] at hhead
        exact Nat.eq_of_mul_eq_mul_right (Nat.two_pow_pos _) hhead
      have htail : slotSum ds = slotSum es := by
        simp only [slotSum] at hsum
        omega
      have hde : d = e := by
        cases d; cases e; simp_all
      rw [hde, ih es hrest hpd'.2 hpe'.2 hfds hfes htail]

/-- C7: for slot lists whose bit ranges are pairwise disjoint and inside the
`unsigned` width, `compute_permutation` is injective on the value assignments
that fit their slots: two assignments to the same global and local slots with
the same permutation id have the same value in every slot. -/
theorem compute_permutation_injective (g l g' l' : List Define)
    (hg : sameSlots g g') (hl : sameSlots l l')
    (halloc : wellAllocated (g ++ l))
    (hfit : valuesFit (g ++ l)) (hfit' : valuesFit (g' ++ l'))
    (heq : compute_permutation g l = compute_permutation g' l') :
    g.map Define.value = g'.map Define.value ∧ l.map Define.value = l'.map Define.value := by
  have hs := sameSlots_append g g' l l' hg hl
  have halloc' := sameSlots_wellAllocated _ _ hs halloc
  have hsum : slotSum (g ++ l) = slotSum (g' ++ l') := by
    rw [← compute_permutation_eq_slotSum g l halloc hfit,
      ← compute_permutation_eq_slotSum g' l' halloc' hfit', heq]
  have happ := slotSum_injective _ _ hs halloc.1 halloc'.1 hfit hfit' hsum
  obtain ⟨h1, h2⟩ := List.append_inj happ (sameSlots_length g g' hg)
  rw [h1, h2]
  exact ⟨rfl, rfl⟩


/-- C7 on a global two-bit slot holding 3 and the slots `DIFFUSE_MAP = 0`,
`INSTANCED = 1`, whose key is `3 + (0 << 2) + (1 << 3) = 11`. -/
theorem compute_permutation_injective_witness :
    compute_permutation (sampleGlobals 3) (sampleDefines 0 1) = 11 ∧
      (sampleGlobals 3).map Define.value = (sampleGlobals 3).map Define.value ∧
      (sampleDefines 0 1).map Define.value = (sampleDefines 0 1).map Define.value :=
  ⟨by decide,
    compute_permutation_injective (sampleGlobals 3) (sampleDefines 0 1)
      (sampleGlobals 3) (sampleDefines 0 1)
      (by simp [sameSlots, sampleGlobals])
      (by simp [sameSlots, sampleDefines])
      (by simp [wellAllocated, disjointSlots, unsignedBits, sampleGlobals, sampleDefines])
      (by simp [valuesFit, sampleGlobals, sampleDefines])
      (by simp [valuesFit, sampleGlobals, sampleDefines])
      rfl⟩

end Boxes
